import Mathlib

/-!
# Verification of `src/binary_heap.ts` (async binary heap)

Shallow embedding of the `BinaryHeap` class.  The backing array `#data`
becomes a `List T`; the async comparator `(a, b) => Promise<number>`
becomes a pure `cmp : T → T → Int` (an operation "completing without
comparator failure" performs exactly these comparisons), and a fallible
`cmp : T → T → Except ε Int` where comparator failure matters.  Mutation
is explicit state passing: each operation returns the new backing list.
-/

namespace AsyncBinaryHeap

/-- JS array indexing `data[i]` (in-bounds at every use site). -/
def elemAt {T : Type} [Inhabited T] : List T → Nat → T
  | [], _ => default
  | a :: _, 0 => a
  | _ :: l, n + 1 => elemAt l n

/-- `swap` from binary_heap.ts lines 7–11: exchange the values at two
indexes (always called with both indexes in bounds). -/
def swap {T : Type} [Inhabited T] (l : List T) (i j : Nat) : List T :=
  (l.set i (elemAt l j)).set j (elemAt l i)

/-- `getParentIndex` (line 14): `Math.floor((index + 1) / 2) - 1`.
Nat subtraction truncates the `index = 0` case to `0` where JS gives
`-1`; every use site guards `index ≠ 0` first. -/
def getParentIndex (index : Nat) : Nat :=
  (index + 1) / 2 - 1

/-- The heap-order invariant of §3 of the spec: every non-root entry
compares not-nearer-the-root (`≥ 0`) against its parent. -/
def heapProp {T : Type} [Inhabited T] (cmp : T → T → Int) (data : List T) : Prop :=
  ∀ i, i < data.length → 0 < i →
    0 ≤ cmp (elemAt data i) (elemAt data (getParentIndex i))

instance {T : Type} [Inhabited T] (cmp : T → T → Int) (data : List T) :
    Decidable (heapProp cmp data) := by
  unfold heapProp; infer_instance

/-- A comparator that realises a total preorder through its sign, the way
the spec's ordering-function contract (§4.1, §6) reads the results:
negative means "first argument nearer the root", positive the opposite. -/
def LawfulCmp {T : Type} (cmp : T → T → Int) : Prop :=
  ∃ le : T → T → Prop,
    (∀ a b, le a b ∨ le b a) ∧
    (∀ a b c, le a b → le b c → le a c) ∧
    (∀ a b, cmp a b < 0 ↔ ¬ le b a) ∧
    (∀ a b, 0 < cmp a b ↔ ¬ le a b)

/-- `descend` of @std/data-structures.  Modelled from the spec: the
default comparator ("Default: descending natural/lexicographic order",
§4.1) is imported from outside this repository; on numbers it returns
`1` when `a < b`, `-1` when `a > b` and `0` otherwise. -/
def descend (a b : Int) : Int :=
  if a < b then 1 else if b < a then -1 else 0

section Ops

variable {T : Type} [Inhabited T]

/-- The sift-up loop of `push` (lines 187–196): while not at the root
and comparing negative against the parent, swap upward. -/
def siftUpLoop (cmp : T → T → Int) (data : List T) (index : Nat) : List T :=
  if h : index = 0 then data
  else
    let parent := getParentIndex index
    if cmp (elemAt data index) (elemAt data parent) < 0 then
      siftUpLoop cmp (swap data parent index) parent
    else data
termination_by index
decreasing_by
  simp only [getParentIndex]
  omega

/-- One iteration of `push`'s `for` loop (lines 183–197): append the
value, then sift it up from the old length. -/
def push1 (cmp : T → T → Int) (data : List T) (value : T) : List T :=
  siftUpLoop cmp (data ++ [value]) data.length

/-- `push(...values)` (lines 182–199): insert left-to-right, return the
new length together with the new backing list. -/
def push (cmp : T → T → Int) (data : List T) (values : List T) : Nat × List T :=
  let d := values.foldl (push1 cmp) data
  (d.length, d)

/-- The `greatestChild` selection of `pop` (lines 161–165):
`right >= size || compare(data[left], data[right]) <= 0 ? left : right`,
with the short-circuit `||` as a nested conditional. -/
def pickChild (cmp : T → T → Int) (data : List T) (size left right : Nat) : Nat :=
  if size ≤ right then left
  else if cmp (elemAt data left) (elemAt data right) ≤ 0 then left
  else right

/-- The sift-down loop of `pop` (lines 160–174). -/
def siftDownLoop (cmp : T → T → Int) (data : List T) (size parent : Nat) : List T :=
  let right := 2 * (parent + 1)
  let left := right - 1
  if h : left < size then
    let greatestChild := pickChild cmp data size left right
    if cmp (elemAt data greatestChild) (elemAt data parent) < 0 then
      siftDownLoop cmp (swap data parent greatestChild) size greatestChild
    else data
  else data
termination_by size - parent
decreasing_by
  have hc : parent < pickChild cmp data size (2 * (parent + 1) - 1) (2 * (parent + 1)) ∧
      pickChild cmp data size (2 * (parent + 1) - 1) (2 * (parent + 1)) < size := by
    unfold pickChild
    split
    · omega
    · split <;> omega
  omega

/-- `pop()` (lines 153–176): swap the root with the last slot, sift the
relocated root down over the shrunk logical size, then physically remove
and return the last slot. -/
def pop (cmp : T → T → Int) (data : List T) : Option T × List T :=
  if data.length = 0 then (none, data)
  else
    let size := data.length - 1
    let d1 := swap data 0 size
    let d2 := siftDownLoop cmp d1 size 0
    (d2.getLast?, d2.dropLast)

/-- `peek()` (lines 145–147): `this.#data[0]`, `undefined` when empty. -/
def peek (data : List T) : Option T :=
  data.head?

end Ops

section BasicLemmas

variable {T : Type} [Inhabited T]

theorem elemAt_set_self (l : List T) (i : Nat) (x : T) (h : i < l.length) :
    elemAt (l.set i x) i = x := by
  induction l generalizing i with
  | nil => simp at h
  | cons a l ih =>
    cases i with
    | zero => simp [elemAt]
    | succ n =>
      simp only [List.set, elemAt]
      exact ih n (by simpa using h)

theorem elemAt_set_ne (l : List T) {i j : Nat} {x : T} (h : i ≠ j) :
    elemAt (l.set i x) j = elemAt l j := by
  induction l generalizing i j with
  | nil => simp [List.set]
  | cons a l ih =>
    cases i with
    | zero =>
      cases j with
      | zero => exact absurd rfl h
      | succ m => simp [List.set, elemAt]
    | succ n =>
      cases j with
      | zero => simp [List.set, elemAt]
      | succ m => simpa [List.set, elemAt] using ih (by omega)

theorem length_swap (l : List T) (i j : Nat) : (swap l i j).length = l.length := by
  simp [swap]

theorem elemAt_swap_fst (l : List T) {i j : Nat} (hi : i < l.length) (hj : j < l.length) :
    elemAt (swap l i j) i = elemAt l j := by
  unfold swap
  by_cases hij : i = j
  · subst hij
    rw [elemAt_set_self _ _ _ (by simpa using hi)]
  · rw [elemAt_set_ne _ (Ne.symm hij), elemAt_set_self _ _ _ hi]

theorem elemAt_swap_snd (l : List T) {i j : Nat} (hi : i < l.length) (hj : j < l.length) :
    elemAt (swap l i j) j = elemAt l i := by
  unfold swap
  rw [elemAt_set_self _ _ _ (by simpa using hj)]

theorem elemAt_swap_other (l : List T) {i j k : Nat} (h1 : k ≠ i) (h2 : k ≠ j) :
    elemAt (swap l i j) k = elemAt l k := by
  unfold swap
  rw [elemAt_set_ne _ (Ne.symm h2), elemAt_set_ne _ (Ne.symm h1)]

theorem elemAt_append_lt (l l' : List T) {i : Nat} (h : i < l.length) :
    elemAt (l ++ l') i = elemAt l i := by
  induction l generalizing i with
  | nil => simp at h
  | cons a t ih =>
    cases i with
    | zero => simp [elemAt]
    | succ n => simpa [elemAt] using ih (by simpa using h)

theorem elemAt_append_self (l : List T) (v : T) :
    elemAt (l ++ [v]) l.length = v := by
  induction l with
  | nil => simp [elemAt]
  | cons a t ih => simpa [elemAt] using ih

theorem getParentIndex_lt {i : Nat} (h : 0 < i) : getParentIndex i < i := by
  unfold getParentIndex; omega

theorem getParentIndex_left (p : Nat) : getParentIndex (2 * p + 1) = p := by
  unfold getParentIndex; omega

theorem getParentIndex_right (p : Nat) : getParentIndex (2 * p + 2) = p := by
  unfold getParentIndex; omega

theorem child_of_parent {i p : Nat} (h0 : 0 < i) (h : getParentIndex i = p) :
    i = 2 * p + 1 ∨ i = 2 * p + 2 := by
  unfold getParentIndex at h; omega

end BasicLemmas

section LawfulLemmas

variable {T : Type} {cmp : T → T → Int}

theorem LawfulCmp.flipLeGe (h : LawfulCmp cmp) {a b : T} (hab : cmp a b ≤ 0) :
    0 ≤ cmp b a := by
  obtain ⟨le, htot, htrans, hlt, hgt⟩ := h
  have hle : le a b := by
    by_contra hn
    have := (hgt a b).mpr hn
    omega
  by_contra hn
  push_neg at hn
  exact (hlt b a).mp hn hle

theorem LawfulCmp.flipLtGe (h : LawfulCmp cmp) {a b : T} (hab : cmp a b < 0) :
    0 ≤ cmp b a :=
  h.flipLeGe (le_of_lt hab)

theorem LawfulCmp.geTrans (h : LawfulCmp cmp) {a b c : T}
    (h1 : 0 ≤ cmp a b) (h2 : 0 ≤ cmp b c) : 0 ≤ cmp a c := by
  obtain ⟨le, htot, htrans, hlt, hgt⟩ := h
  have hba : le b a := by
    by_contra hn
    exact absurd ((hlt a b).mpr hn) (by omega)
  have hcb : le c b := by
    by_contra hn
    exact absurd ((hlt b c).mpr hn) (by omega)
  by_contra hn
  push_neg at hn
  exact absurd (htrans c b a hcb hba) ((hlt a c).mp hn)

theorem LawfulCmp.siftA (h : LawfulCmp cmp) {j p s : T}
    (h1 : cmp j p < 0) (h2 : 0 ≤ cmp s p) : 0 ≤ cmp s j := by
  obtain ⟨le, htot, htrans, hlt, hgt⟩ := h
  have hpj : ¬ le p j := (hlt j p).mp h1
  have hps : le p s := by
    by_contra hn
    exact absurd ((hlt s p).mpr hn) (by omega)
  by_contra hn
  push_neg at hn
  have hjs : ¬ le j s := (hlt s j).mp hn
  rcases htot j s with h' | h'
  · exact hjs h'
  · exact hpj (htrans p s j hps h')

theorem LawfulCmp.geRefl (h : LawfulCmp cmp) (a : T) : 0 ≤ cmp a a := by
  obtain ⟨le, htot, htrans, hlt, hgt⟩ := h
  by_contra hn
  push_neg at hn
  exact (hlt a a).mp hn ((htot a a).elim id id)

theorem LawfulCmp.leOfGe (h : LawfulCmp cmp) {a b : T} (hab : 0 ≤ cmp a b) :
    cmp b a ≤ 0 := by
  obtain ⟨le, htot, htrans, hlt, hgt⟩ := h
  by_contra hn
  push_neg at hn
  have h1 : ¬ le b a := (hgt b a).mp hn
  have h2 : le b a := by
    by_contra hn2
    exact absurd ((hlt a b).mpr hn2) (by omega)
  exact h1 h2

theorem lawful_descend : LawfulCmp descend := by
  refine ⟨fun a b => b ≤ a, fun a b => ?_, fun a b c h1 h2 => le_trans h2 h1, ?_, ?_⟩
  · omega
  · intro a b
    unfold descend
    split <;> rename_i h1
    · constructor
      · omega
      · intro h; omega
    · split <;> constructor <;> omega
  · intro a b
    unfold descend
    split <;> rename_i h1
    · constructor <;> intro h <;> omega
    · split <;> constructor <;> omega

end LawfulLemmas

section StepLemmas

variable {T : Type} [Inhabited T] (cmp : T → T → Int)

theorem siftUpLoop_zero (data : List T) : siftUpLoop cmp data 0 = data := by
  rw [siftUpLoop]
  simp

theorem siftUpLoop_pos (data : List T) {index : Nat} (h : index ≠ 0) :
    siftUpLoop cmp data index =
      if cmp (elemAt data index) (elemAt data (getParentIndex index)) < 0 then
        siftUpLoop cmp (swap data (getParentIndex index) index) (getParentIndex index)
      else data := by
  rw [siftUpLoop, dif_neg h]

theorem siftDownLoop_stop (data : List T) {size parent : Nat}
    (h : ¬ 2 * (parent + 1) - 1 < size) :
    siftDownLoop cmp data size parent = data := by
  rw [siftDownLoop, dif_neg h]

theorem siftDownLoop_go (data : List T) {size parent : Nat}
    (h : 2 * (parent + 1) - 1 < size) :
    siftDownLoop cmp data size parent =
      if cmp (elemAt data (pickChild cmp data size (2 * (parent + 1) - 1) (2 * (parent + 1))))
          (elemAt data parent) < 0 then
        siftDownLoop cmp
          (swap data parent (pickChild cmp data size (2 * (parent + 1) - 1) (2 * (parent + 1))))
          size (pickChild cmp data size (2 * (parent + 1) - 1) (2 * (parent + 1)))
      else data := by
  rw [siftDownLoop, dif_pos h]

theorem length_siftUpLoop (data : List T) (index : Nat) :
    (siftUpLoop cmp data index).length = data.length := by
  induction data, index using siftUpLoop.induct cmp with
  | case1 data => rw [siftUpLoop_zero]
  | case2 data index h0 parent hlt ih =>
    rw [siftUpLoop_pos cmp data h0, if_pos hlt, ih, length_swap]
  | case3 data index h0 parent hge =>
    rw [siftUpLoop_pos cmp data h0, if_neg hge]

theorem length_push1 (data : List T) (v : T) :
    (push1 cmp data v).length = data.length + 1 := by
  unfold push1
  rw [length_siftUpLoop]
  simp

theorem length_push_snd (data : List T) (values : List T) :
    (push cmp data values).2.length = data.length + values.length := by
  unfold push
  induction values generalizing data with
  | nil => simp
  | cons v vs ih =>
    simp only [List.foldl_cons, List.length_cons]
    rw [ih (push1 cmp data v), length_push1]
    omega

theorem length_siftDownLoop (data : List T) (size parent : Nat) :
    (siftDownLoop cmp data size parent).length = data.length := by
  induction data, size, parent using siftDownLoop.induct cmp with
  | case1 data size parent right left hl g hlt ih =>
    rw [siftDownLoop_go cmp data hl, if_pos hlt, ih, length_swap]
  | case2 data size parent right left hl g hge =>
    rw [siftDownLoop_go cmp data hl, if_neg hge]
  | case3 data size parent right left hl =>
    rw [siftDownLoop_stop cmp data hl]

/-- The sift-down loop only swaps at indexes `< size`: entries at or
beyond `size` (in particular the stashed old root at index `size`) are
untouched. -/
theorem elemAt_siftDownLoop_ge (data : List T) (size parent : Nat)
    {k : Nat} (hk : size ≤ k) :
    elemAt (siftDownLoop cmp data size parent) k = elemAt data k := by
  induction data, size, parent using siftDownLoop.induct cmp with
  | case1 data size parent right left hl g hlt ih =>
    rw [siftDownLoop_go cmp data hl, if_pos hlt, ih hk]
    have hl' : 2 * (parent + 1) - 1 < size := hl
    have hg : parent < g ∧ g < size := by
      show parent < pickChild cmp data size (2 * (parent + 1) - 1) (2 * (parent + 1)) ∧
        pickChild cmp data size (2 * (parent + 1) - 1) (2 * (parent + 1)) < size
      unfold pickChild
      split
      · omega
      · split <;> omega
    exact elemAt_swap_other data (by omega) (by omega)
  | case2 data size parent right left hl g hge =>
    rw [siftDownLoop_go cmp data hl, if_neg hge]
  | case3 data size parent right left hl =>
    rw [siftDownLoop_stop cmp data hl]

theorem length_pop_snd (data : List T) (h : data ≠ []) :
    (pop cmp data).2.length = data.length - 1 := by
  unfold pop
  rw [if_neg (by simpa using List.length_pos.mpr h |>.ne')]
  simp only [List.length_dropLast, length_siftDownLoop, length_swap]

theorem getLast?_eq_elemAt (l : List T) (h : l ≠ []) :
    l.getLast? = some (elemAt l (l.length - 1)) := by
  induction l with
  | nil => exact absurd rfl h
  | cons a t ih =>
    cases t with
    | nil => simp [elemAt]
    | cons b u =>
      rw [List.getLast?_cons_cons, ih (by simp)]
      simp [elemAt]

/-- `pop` on a non-empty heap returns the element that was at index 0. -/
theorem pop_fst (data : List T) (h : data ≠ []) :
    (pop cmp data).1 = some (elemAt data 0) := by
  unfold pop
  rw [if_neg (by simpa using List.length_pos.mpr h |>.ne')]
  simp only
  have hlen : (siftDownLoop cmp (swap data 0 (data.length - 1)) (data.length - 1) 0).length
      = data.length := by
    rw [length_siftDownLoop, length_swap]
  rw [getLast?_eq_elemAt _ (by
      intro hnil
      rw [hnil] at hlen
      simp at hlen
      exact h (List.length_eq_zero.mp hlen.symm)), hlen]
  rw [elemAt_siftDownLoop_ge cmp _ _ _ (le_refl _)]
  have h0 : 0 < data.length := List.length_pos.mpr h
  rw [elemAt_swap_snd data (by omega) (by omega)]

theorem pop_empty (cmp' : T → T → Int) : pop cmp' ([] : List T) = (none, []) := by
  simp [pop]

/-- `drain()` (lines 215–219): repeatedly `pop` while not `isEmpty`,
collecting the yielded values; also returns the final backing list. -/
def drain (cmp : T → T → Int) (data : List T) : List T × List T :=
  if data.isEmpty then ([], data)
  else
    let r := pop cmp data
    let rest := drain cmp r.2
    (r.1.toList ++ rest.1, rest.2)
termination_by data.length
decreasing_by
  have hne : data ≠ [] := by
    intro hq
    subst hq
    simp_all
  rw [length_pop_snd cmp data hne]
  have := List.length_pos.mpr hne
  omega

/-- Default async iteration (lines 222–224): `yield* this.drain()`. -/
def asyncIterate (cmp : T → T → Int) (data : List T) : List T × List T :=
  drain cmp data

theorem drain_empty (data : List T) (h : data.isEmpty) : drain cmp data = ([], data) := by
  rw [drain, if_pos h]

theorem drain_cons (data : List T) (h : ¬ data.isEmpty) :
    drain cmp data =
      ((pop cmp data).1.toList ++ (drain cmp (pop cmp data).2).1,
        (drain cmp (pop cmp data).2).2) := by
  rw [drain, if_neg h]

theorem drain_snd_nil (data : List T) : (drain cmp data).2 = [] := by
  induction data using drain.induct cmp with
  | case1 data h =>
    rw [drain_empty cmp data h]
    simpa using h
  | case2 data h r ih =>
    rw [drain_cons cmp data h]
    exact ih

end StepLemmas

section Invariant

variable {T : Type} [Inhabited T] {cmp : T → T → Int}

theorem getParentIndex_zero : getParentIndex 0 = 0 := rfl

/-- Sift-up repairs the heap: if the heap property holds everywhere
except possibly at the edge from `index` to its parent, and the children
of `index` already compare `≥ 0` against the parent of `index`, then the
loop of lines 187–196 re-establishes the full invariant. -/
theorem siftUpLoop_heapProp (hc : LawfulCmp cmp) (data : List T) (index : Nat) :
    index < data.length →
    (∀ i, i < data.length → 0 < i → i ≠ index →
      0 ≤ cmp (elemAt data i) (elemAt data (getParentIndex i))) →
    (index ≠ 0 → ∀ c, c < data.length → 0 < c → getParentIndex c = index →
      0 ≤ cmp (elemAt data c) (elemAt data (getParentIndex index))) →
    heapProp cmp (siftUpLoop cmp data index) := by
  induction data, index using siftUpLoop.induct cmp with
  | case1 data =>
    intro hidx ha hb
    rw [siftUpLoop_zero]
    intro i hi h0i
    exact ha i hi h0i (by omega)
  | case2 data index h0 parent hlt ih =>
    intro hidx ha hb
    rw [siftUpLoop_pos cmp data h0, if_pos hlt]
    have hpi : parent < index := getParentIndex_lt (Nat.pos_of_ne_zero h0)
    apply ih
    · rw [length_swap]
      omega
    · intro i hi h0i hip
      rw [length_swap] at hi
      by_cases hii : i = index
      · subst hii
        rw [elemAt_swap_snd data (by omega) hi,
          elemAt_swap_fst data (by omega) hi]
        exact hc.flipLtGe hlt
      · rw [elemAt_swap_other data hip hii]
        by_cases hpp : getParentIndex i = parent
        · rw [hpp, elemAt_swap_fst data (by omega) (by omega)]
          exact hc.siftA hlt (hpp ▸ ha i hi h0i hii)
        · by_cases hppi : getParentIndex i = index
          · rw [hppi, elemAt_swap_snd data (by omega) (by omega)]
            exact hb h0 i hi h0i hppi
          · rw [elemAt_swap_other data hpp hppi]
            exact ha i hi h0i hii
    · intro hp0 c hc' h0c hpc
      rw [length_swap] at hc'
      have hpp : getParentIndex parent < parent :=
        getParentIndex_lt (Nat.pos_of_ne_zero hp0)
      rw [elemAt_swap_other data (show getParentIndex parent ≠ parent by omega)
        (show getParentIndex parent ≠ index by omega)]
      by_cases hci : c = index
      · rw [hci, elemAt_swap_snd data (by omega) (by omega)]
        exact ha parent (by omega) (Nat.pos_of_ne_zero hp0) (by omega)
      · have hcp : getParentIndex c < c := getParentIndex_lt h0c
        rw [elemAt_swap_other data (by omega) hci]
        have h1 : 0 ≤ cmp (elemAt data c) (elemAt data parent) := by
          rw [← hpc]
          exact ha c hc' h0c hci
        exact hc.geTrans h1 (ha parent (by omega) (Nat.pos_of_ne_zero hp0) (by omega))
  | case3 data index h0 parent hge =>
    intro hidx ha hb
    rw [siftUpLoop_pos cmp data h0, if_neg hge]
    intro i hi h0i
    by_cases hii : i = index
    · subst hii
      exact Int.not_lt.mp hge
    · exact ha i hi h0i hii

/-- `push` of one value preserves the heap invariant. -/
theorem heapProp_push1 (hc : LawfulCmp cmp) {data : List T} (hd : heapProp cmp data)
    (v : T) : heapProp cmp (push1 cmp data v) := by
  unfold push1
  apply siftUpLoop_heapProp hc
  · simp
  · intro i hi h0i hii
    simp only [List.length_append, List.length_cons, List.length_nil] at hi
    have hi' : i < data.length := by omega
    have hp' : getParentIndex i < data.length := by
      have := getParentIndex_lt h0i
      omega
    rw [elemAt_append_lt data _ hi', elemAt_append_lt data _ hp']
    exact hd i hi' h0i
  · intro h0 c hcl h0c hpc
    have := child_of_parent h0c hpc
    simp only [List.length_append, List.length_cons, List.length_nil] at hcl
    omega

theorem heapProp_push (hc : LawfulCmp cmp) {data : List T} (hd : heapProp cmp data)
    (values : List T) : heapProp cmp (push cmp data values).2 := by
  unfold push
  induction values generalizing data with
  | nil => exact hd
  | cons v vs ih => exact ih (heapProp_push1 hc hd v)

/-- The heap-order invariant restricted to the first `n` entries (the
logical heap during `pop`, which excludes the stashed old root). -/
def heapPropN (cmp : T → T → Int) (data : List T) (n : Nat) : Prop :=
  ∀ i, i < n → 0 < i →
    0 ≤ cmp (elemAt data i) (elemAt data (getParentIndex i))

theorem pickChild_spec (cmp : T → T → Int) (data : List T) (size left right : Nat) :
    (pickChild cmp data size left right = left ∧
      (size ≤ right ∨ cmp (elemAt data left) (elemAt data right) ≤ 0)) ∨
    (pickChild cmp data size left right = right ∧ right < size ∧
      0 < cmp (elemAt data left) (elemAt data right)) := by
  unfold pickChild
  split
  · exact Or.inl ⟨rfl, Or.inl ‹_›⟩
  · split
    · exact Or.inl ⟨rfl, Or.inr ‹_›⟩
    · exact Or.inr ⟨rfl, by omega, by omega⟩

/-- Sift-down repairs the heap over the logical size: if the first
`size` entries satisfy the heap property except possibly at the edges
into `parent`, and the children of `parent` compare `≥ 0` against its
own parent, the loop of lines 160–174 re-establishes the invariant on
all `size` logical entries. -/
theorem siftDownLoop_heapPropN (hc : LawfulCmp cmp) (data : List T) (size parent : Nat) :
    size ≤ data.length →
    (∀ i, i < size → 0 < i → getParentIndex i ≠ parent →
      0 ≤ cmp (elemAt data i) (elemAt data (getParentIndex i))) →
    (parent ≠ 0 → ∀ c, c < size → getParentIndex c = parent →
      0 ≤ cmp (elemAt data c) (elemAt data (getParentIndex parent))) →
    heapPropN cmp (siftDownLoop cmp data size parent) size := by
  induction data, size, parent using siftDownLoop.induct cmp with
  | case1 data size parent right left hl g hlt ih =>
    intro hsz ha hb
    have hl' : 2 * (parent + 1) - 1 < size := hl
    rw [siftDownLoop_go cmp data hl, if_pos hlt]
    have hgspec := pickChild_spec cmp data size (2 * (parent + 1) - 1) (2 * (parent + 1))
    have hpl : getParentIndex (2 * (parent + 1) - 1) = parent := by
      have : 2 * (parent + 1) - 1 = 2 * parent + 1 := by omega
      rw [this, getParentIndex_left]
    have hpr : getParentIndex (2 * (parent + 1)) = parent := by
      have : 2 * (parent + 1) = 2 * parent + 2 := by omega
      rw [this, getParentIndex_right]
    have hg : parent < g ∧ g < size ∧ getParentIndex g = parent := by
      rcases hgspec with ⟨he, hcase⟩ | ⟨he, hrs, _⟩
      · have heg : g = 2 * (parent + 1) - 1 := he
        exact ⟨by omega, by omega, by rw [heg]; exact hpl⟩
      · have heg : g = 2 * (parent + 1) := he
        exact ⟨by omega, by omega, by rw [heg]; exact hpr⟩
    apply ih
    · rw [length_swap]
      exact hsz
    · -- heap property away from the new hole `g`
      intro i hi h0i hig
      by_cases hii : i = g
      · -- the edge from `g` up to `parent` now holds: the swap reversed it
        rw [hii, elemAt_swap_snd data (by omega) (by omega)]
        have hgp : getParentIndex g = parent := hg.2.2
        rw [hgp, elemAt_swap_fst data (by omega) (by omega)]
        exact hc.flipLtGe hlt
      · by_cases hiparent : getParentIndex i = parent
        · -- sibling of `g`: it compares `≥ 0` against the promoted child
          have hchild := child_of_parent h0i hiparent
          have hne : i ≠ parent := by omega
          rw [elemAt_swap_other data hne hii, hiparent,
            elemAt_swap_fst data (by omega) (by omega)]
          rcases hgspec with ⟨he, hcase⟩ | ⟨he, hrs, hcmp⟩
          · -- g = left, so i = right, which is in bounds
            have heg : g = 2 * (parent + 1) - 1 := he
            have hir : i = 2 * (parent + 1) := by omega
            rcases hcase with hout | hle
            · omega
            · rw [hir, heg]
              exact hc.flipLeGe hle
          · -- g = right, so i = left, and compare(left,right) > 0
            have heg : g = 2 * (parent + 1) := he
            have hil : i = 2 * (parent + 1) - 1 := by omega
            rw [hil, heg]
            omega
        · -- an edge not touching `parent`; it may touch `g` only as `i = parent`
          by_cases hip : i = parent
          · -- the old hole: promoted child versus grandparent, from `hb`
            have hp0 : parent ≠ 0 := by omega
            rw [hip, elemAt_swap_fst data (by omega) (by omega),
              elemAt_swap_other data
                (show getParentIndex parent ≠ parent from by
                  have := getParentIndex_lt (Nat.pos_of_ne_zero hp0)
                  omega)
                (show getParentIndex parent ≠ g from by
                  have := getParentIndex_lt (Nat.pos_of_ne_zero hp0)
                  omega)]
            exact hb hp0 g hg.2.1 hg.2.2
          · rw [elemAt_swap_other data hip hii,
              elemAt_swap_other data hiparent hig]
            exact ha i hi h0i hiparent
    · -- children of the new hole `g` still fit under its parent
      intro _ c hcs hcg
      have hgc : g < c := by
        have := getParentIndex_lt (show 0 < c by
          rcases Nat.eq_zero_or_pos c with h0 | h0
          · rw [h0, getParentIndex_zero] at hcg
            omega
          · exact h0)
        omega
      have hcg' : getParentIndex c ≠ parent := by omega
      rw [elemAt_swap_other data (by omega) (by omega), hg.2.2,
        elemAt_swap_fst data (by omega) (by omega)]
      have := ha c hcs (by omega) (by rw [hcg]; omega)
      rw [hcg] at this
      exact this
  | case2 data size parent right left hl g hge =>
    intro hsz ha hb
    have hl' : 2 * (parent + 1) - 1 < size := hl
    rw [siftDownLoop_go cmp data hl, if_neg hge]
    have hgspec := pickChild_spec cmp data size (2 * (parent + 1) - 1) (2 * (parent + 1))
    have hge' : 0 ≤ cmp (elemAt data g) (elemAt data parent) := Int.not_lt.mp hge
    intro i hi h0i
    by_cases hiparent : getParentIndex i = parent
    · have hchild := child_of_parent h0i hiparent
      rw [hiparent]
      rcases hgspec with ⟨he, hcase⟩ | ⟨he, hrs, hcmp⟩
      · have heg : g = 2 * (parent + 1) - 1 := he
        rw [heg] at hge'
        rcases hchild with hil | hir
        · -- i = left, the inspected child itself
          rw [show i = 2 * (parent + 1) - 1 by omega]
          exact hge'
        · -- i = right; in bounds, so compare(left,right) ≤ 0 held
          rcases hcase with hout | hle
          · omega
          · rw [show i = 2 * (parent + 1) by omega]
            exact hc.geTrans (hc.flipLeGe hle) hge'
      · have heg : g = 2 * (parent + 1) := he
        rw [heg] at hge'
        rcases hchild with hil | hir
        · -- i = left and compare(left,right) > 0
          rw [show i = 2 * (parent + 1) - 1 by omega]
          exact hc.geTrans (by omega) hge'
        · rw [show i = 2 * (parent + 1) by omega]
          exact hge'
    · exact ha i hi h0i hiparent
  | case3 data size parent right left hl =>
    intro hsz ha hb
    have hl' : ¬ 2 * (parent + 1) - 1 < size := hl
    rw [siftDownLoop_stop cmp data hl]
    intro i hi h0i
    by_cases hiparent : getParentIndex i = parent
    · have := child_of_parent h0i hiparent
      omega
    · exact ha i hi h0i hiparent

theorem elemAt_dropLast (l : List T) {i : Nat} (h : i + 1 < l.length) :
    elemAt l.dropLast i = elemAt l i := by
  induction l generalizing i with
  | nil => simp at h
  | cons a t ih =>
    cases t with
    | nil => simp at h
    | cons b u =>
      cases i with
      | zero => simp [elemAt]
      | succ n =>
        have : (a :: b :: u).dropLast = a :: (b :: u).dropLast := rfl
        rw [this]
        simpa [elemAt] using ih (by simpa using h)

/-- `pop` preserves the heap invariant. -/
theorem heapProp_pop (hc : LawfulCmp cmp) {data : List T} (hd : heapProp cmp data) :
    heapProp cmp (pop cmp data).2 := by
  unfold pop
  by_cases hemp : data.length = 0
  · rw [if_pos hemp]
    exact hd
  · rw [if_neg hemp]
    simp only
    have hlen : (siftDownLoop cmp (swap data 0 (data.length - 1)) (data.length - 1) 0).length
        = data.length := by
      rw [length_siftDownLoop, length_swap]
    have hmain : heapPropN cmp
        (siftDownLoop cmp (swap data 0 (data.length - 1)) (data.length - 1) 0)
        (data.length - 1) := by
      apply siftDownLoop_heapPropN hc
      · rw [length_swap]
        omega
      · intro i hi h0i hip
        have hpi : getParentIndex i < i := getParentIndex_lt h0i
        rw [elemAt_swap_other data (by omega) (by omega),
          elemAt_swap_other data (by omega) (by omega)]
        exact hd i (by omega) h0i
      · intro h0
        exact absurd rfl h0
    intro i hi h0i
    simp only [List.length_dropLast, hlen] at hi
    have hpi : getParentIndex i < i := getParentIndex_lt h0i
    rw [elemAt_dropLast _ (by omega), elemAt_dropLast _ (by omega)]
    exact hmain i hi h0i

/-- A push or pop step of the lifecycle of §4.2–§4.3. -/
inductive HeapOp (T : Type) where
  | pushOp (values : List T) : HeapOp T
  | popOp : HeapOp T

def applyOp (cmp : T → T → Int) (data : List T) : HeapOp T → List T
  | .pushOp values => (push cmp data values).2
  | .popOp => (pop cmp data).2

def applyOps (cmp : T → T → Int) (data : List T) (ops : List (HeapOp T)) : List T :=
  ops.foldl (applyOp cmp) data

theorem heapProp_applyOp (hc : LawfulCmp cmp) {data : List T} (hd : heapProp cmp data)
    (op : HeapOp T) : heapProp cmp (applyOp cmp data op) := by
  cases op with
  | pushOp values => exact heapProp_push hc hd values
  | popOp => exact heapProp_pop hc hd

end Invariant

section RootMax

variable {T : Type} [Inhabited T] {cmp : T → T → Int}

/-- In a heap, the root compares `≤ 0` against every entry: it is the
best element under the ordering function. -/
theorem root_best (hc : LawfulCmp cmp) {data : List T} (hd : heapProp cmp data) :
    ∀ i, i < data.length → cmp (elemAt data 0) (elemAt data i) ≤ 0 := by
  intro i
  induction i using Nat.strong_induction_on with
  | _ i ih =>
    intro hi
    rcases Nat.eq_zero_or_pos i with h0 | h0
    · subst h0
      exact hc.leOfGe (hc.geRefl _)
    · have hpi : getParentIndex i < i := getParentIndex_lt h0
      have h1 : 0 ≤ cmp (elemAt data i) (elemAt data (getParentIndex i)) := hd i hi h0
      have h2 : cmp (elemAt data 0) (elemAt data (getParentIndex i)) ≤ 0 :=
        ih (getParentIndex i) hpi (by omega)
      exact hc.leOfGe (hc.geTrans h1 (hc.flipLeGe h2))

end RootMax

section FallibleModel

variable {T ε : Type} [Inhabited T]

/-- The sift-down loop of `pop` with a fallible comparator: each
`await this.#compare(...)` may raise, in which case the failure is
propagated together with the backing list as it stands at that moment
(no rollback).  The `||` short-circuit of line 162 is preserved: when
`right >= size` the children comparison is never invoked. -/
def siftDownLoopE (cmp : T → T → Except ε Int) (data : List T) (size parent : Nat) :
    Except (ε × List T) (List T) :=
  let right := 2 * (parent + 1)
  let left := right - 1
  if h : left < size then
    if size ≤ right then
      match cmp (elemAt data left) (elemAt data parent) with
      | .error e => .error (e, data)
      | .ok c =>
        if h2 : c < 0 then
          siftDownLoopE cmp (swap data parent left) size left
        else .ok data
    else
      match cmp (elemAt data left) (elemAt data right) with
      | .error e => .error (e, data)
      | .ok c0 =>
        let greatestChild := if c0 ≤ 0 then left else right
        match cmp (elemAt data greatestChild) (elemAt data parent) with
        | .error e => .error (e, data)
        | .ok c =>
          if h2 : c < 0 then
            siftDownLoopE cmp (swap data parent greatestChild) size greatestChild
          else .ok data
  else .ok data
termination_by size - parent
decreasing_by
  all_goals first
  | omega
  | (split <;> omega)

/-- `pop()` with a fallible comparator (lines 153–176): a comparator
failure aborts the sift and surfaces unmodified, leaving the backing
list as mutated so far. -/
def popE (cmp : T → T → Except ε Int) (data : List T) :
    Except (ε × List T) (Option T × List T) :=
  if data.length = 0 then .ok (none, data)
  else
    let size := data.length - 1
    let d1 := swap data 0 size
    match siftDownLoopE cmp d1 size 0 with
    | .error ed => .error ed
    | .ok d2 => .ok (d2.getLast?, d2.dropLast)

end FallibleModel

section FallibleLemmas

variable {T ε : Type} [Inhabited T]

/-- With at least three elements the sift-down loop runs and its very
first comparator call is awaited; if the comparator fails, the failure
surfaces with the backing list exactly as the initial swap left it. -/
theorem siftDownLoopE_error_first (cmp : T → T → Except ε Int) (e : ε)
    (hfail : ∀ a b, cmp a b = .error e) (data : List T) (size : Nat) (h : 1 < size) :
    siftDownLoopE cmp data size 0 = .error (e, data) := by
  rw [siftDownLoopE]
  have h1 : 2 * (0 + 1) - 1 < size := by omega
  rw [dif_pos h1]
  by_cases h2 : size ≤ 2 * (0 + 1)
  · rw [if_pos h2, hfail]
  · rw [if_neg h2, hfail]

theorem popE_error (cmp : T → T → Except ε Int) (e : ε)
    (hfail : ∀ a b, cmp a b = .error e) (data : List T) (h : 3 ≤ data.length) :
    popE cmp data = .error (e, swap data 0 (data.length - 1)) := by
  unfold popE
  rw [if_neg (by omega)]
  simp only
  rw [siftDownLoopE_error_first cmp e hfail _ _ (by omega)]

theorem popE_nil (cmp : T → T → Except ε Int) : popE cmp ([] : List T) = .ok (none, []) :=
  rfl

end FallibleLemmas

section Construction

/-- A JavaScript error value; construction raises `TypeError` (the
`InvalidArgument` class of the spec's §7 taxonomy). -/
inductive JSError where
  | typeError (msg : String)
deriving DecidableEq

/-- The `compare` argument of the constructor as a dynamically typed
JavaScript value: omitted (or `undefined`, which selects the default
parameter), a function, or some non-callable value. -/
inductive CompareArg (T : Type) where
  | missing
  | callable (f : T → T → Int)
  | notCallable

/-- The constructor (lines 61–68): substitute the default comparator
when the argument is missing, then reject synchronously with a
`TypeError` unless `typeof compare === "function"`; on success the heap
starts with an empty backing list. -/
def mkBinaryHeap {T : Type} (dflt : T → T → Int) :
    CompareArg T → Except JSError ((T → T → Int) × List T)
  | .missing => .ok (dflt, [])
  | .callable f => .ok (f, [])
  | .notCallable => .error (.typeError
      ("Cannot construct a BinaryHeap: the 'compare' parameter is not a function, did you mean to call BinaryHeap.from?"))

section FromPaths

variable {T U V : Type} [Inhabited T] [Inhabited U]

/-- `BinaryHeap.from` on a raw sequence with no options (lines 128–136):
a fresh heap with the given (default) comparator, filled by a single
`push(...values)`. -/
def fromList (cmp : T → T → Int) (values : List T) : List T :=
  (push cmp [] values).2

/-- `Array.from(unmappedValues, options.map, options.thisArg)` (line
133): the transform receives the `thisArg` receiver, each source
element, and its positional index. -/
def jsArrayFromMap (f : V → T → Nat → U) (z : V) : List T → Nat → List U
  | [], _ => []
  | x :: xs, i => f z x i :: jsArrayFromMap f z xs (i + 1)

/-- `BinaryHeap.from` on a raw sequence with a `map` option (lines
128–136): materialise the mapped values first, then push them all into
a fresh heap. -/
def fromListMap (cmp : U → U → Int) (f : V → T → Nat → U) (z : V) (values : List T) :
    List U :=
  (push cmp [] (jsArrayFromMap f z values 0)).2

theorem jsArrayFromMap_eq_mapIdx (f : V → T → Nat → U) (z : V) (l : List T) (i : Nat) :
    jsArrayFromMap f z l i = l.mapIdx (fun k a => f z a (i + k)) := by
  induction l generalizing i with
  | nil => simp [jsArrayFromMap]
  | cons x xs ih =>
    rw [jsArrayFromMap, List.mapIdx_cons, ih (i + 1)]
    have hfe : (fun k (a : T) => f z a (i + 1 + k)) = fun k (a : T) => f z a (i + (k + 1)) := by
      funext k a
      congr 1
      omega
    rw [hfe]
    simp

end FromPaths

section StoreModel

variable {T : Type} [Inhabited T]

/-- A heap object: its fixed comparator and its private backing array. -/
structure HeapObj (T : Type) where
  cmp : T → T → Int
  data : List T

instance : Inhabited (HeapObj T) := ⟨⟨fun _ _ => 0, []⟩⟩

/-- `BinaryHeap.from(heap)` with neither `compare` nor `map` (lines
119–127, cheap path): a brand-new heap object whose backing array is
`Array.from(collection.#data)` — a copy, not an alias — and whose
comparator is inherited.  The store is the list of live heap objects;
a heap reference is an index into it, and the new object gets a fresh
index. -/
def fromHeapCheap (store : List (HeapObj T)) (src : Nat) : List (HeapObj T) × Nat :=
  (store ++ [⟨(elemAt store src).cmp, (elemAt store src).data⟩], store.length)

/-- A mutation performed through one heap reference. -/
inductive MutOp (T : Type) where
  | pushOp (values : List T) : MutOp T
  | popOp : MutOp T
  | clearOp : MutOp T

/-- Apply a mutation to a heap object: `push`/`pop` via the sift
algorithms with the object's own comparator; `clear()` (lines 202–204)
resets the backing array to `[]`. -/
def applyMutObj (o : HeapObj T) : MutOp T → HeapObj T
  | .pushOp values => ⟨o.cmp, (push o.cmp o.data values).2⟩
  | .popOp => ⟨o.cmp, (pop o.cmp o.data).2⟩
  | .clearOp => ⟨o.cmp, []⟩

/-- Apply a mutation through heap reference `i`: only the object at
index `i` in the store is replaced. -/
def applyMutAt (store : List (HeapObj T)) (i : Nat) (op : MutOp T) : List (HeapObj T) :=
  store.set i (applyMutObj (elemAt store i) op)

end StoreModel

end Construction

section Claims

/-- C1: For every heap and every sequence of push/pop operations that
completes without comparator failure (the pure-comparator model), the
heap property holds afterwards: for every non-root index `i` with
parent `p`, `cmp (data[i], data[p])` is never strictly negative.  The
comparator is assumed to present a total preorder through its sign,
which is what the spec's ordering-function contract describes. -/
theorem c1_heap_invariant {T : Type} [Inhabited T] {cmp : T → T → Int}
    (hc : LawfulCmp cmp) (data : List T) (hd : heapProp cmp data)
    (ops : List (HeapOp T)) : heapProp cmp (applyOps cmp data ops) := by
  unfold applyOps
  induction ops generalizing data with
  | nil => exact hd
  | cons op ops ih => exact ih _ (heapProp_applyOp hc hd op)

theorem c1_heap_invariant_witness :
    LawfulCmp descend ∧
      heapProp descend
        (applyOps descend [] [HeapOp.pushOp [4, 1, 3, 5, 2], HeapOp.popOp]) :=
  ⟨lawful_descend,
    c1_heap_invariant lawful_descend [] (by decide)
      [HeapOp.pushOp [4, 1, 3, 5, 2], HeapOp.popOp]⟩

/-- C2: `pop()` on an empty heap returns the absent-value sentinel with
no error (even when the comparator is fallible, since it is never
invoked); on a non-empty heap it returns the element that was at index
0, which — when the heap property held beforehand — compares `≤ 0`
against every element (the best element under the ordering). -/
theorem c2_pop_root {T ε : Type} [Inhabited T] (cmp : T → T → Int)
    (cmpE : T → T → Except ε Int) (data : List T) :
    popE cmpE ([] : List T) = .ok (none, []) ∧
    (data ≠ [] → (pop cmp data).1 = some (elemAt data 0)) ∧
    (data ≠ [] → LawfulCmp cmp → heapProp cmp data →
      ∀ i, i < data.length → cmp (elemAt data 0) (elemAt data i) ≤ 0) := by
  refine ⟨popE_nil cmpE, fun h => pop_fst cmp data h, fun _ hc hd i hi => ?_⟩
  exact root_best hc hd i hi

theorem c2_pop_root_witness :
    (([5, 1] : List Int) ≠ [] ∧ (pop descend [5, 1]).1 = some (elemAt [5, 1] 0)) :=
  ⟨by decide,
    (c2_pop_root descend (fun a b => (.ok (descend a b) : Except Unit Int)) [5, 1]).2.1
      (by decide)⟩

/-- C3: `push` of `k` values onto a heap of length `n` returns `n + k`
and leaves the length `n + k`; `pop()` on a non-empty heap decreases
the length by exactly 1. -/
theorem c3_lengths {T : Type} [Inhabited T] (cmp : T → T → Int)
    (data values : List T) :
    (push cmp data values).1 = data.length + values.length ∧
    (push cmp data values).2.length = data.length + values.length ∧
    (data ≠ [] → (pop cmp data).2.length = data.length - 1) := by
  refine ⟨?_, length_push_snd cmp data values, fun h => length_pop_snd cmp data h⟩
  show (values.foldl (push1 cmp) data).length = data.length + values.length
  exact length_push_snd cmp data values

theorem c3_lengths_witness :
    (([7, 2] : List Int) ≠ [] ∧ (pop descend [7, 2]).2.length = 2 - 1) :=
  ⟨by decide, (c3_lengths descend [7, 2] []).2.2 (by decide)⟩

/-- C4: bulk construction from a raw sequence with no options drains to
exactly the same order as pushing the same sequence element-by-element
into a fresh heap with the default ordering — `from` literally builds
the heap by a single `push(...values)`, whose left-to-right loop is the
same fold as pushing one element at a time. -/
theorem c4_from_eq_pushes (values : List Int) :
    fromList descend values =
      values.foldl (fun data v => (push descend data [v]).2) [] ∧
    (drain descend (fromList descend values)).1 =
      (drain descend (values.foldl (fun data v => (push descend data [v]).2) [])).1 :=
  ⟨rfl, rfl⟩

/-- C5: `drain()` yields the values of repeated `pop` until empty,
leaves the heap empty on completion, yields nothing on an already-empty
heap, and default async iteration is exactly `drain`. -/
theorem c5_drain {T : Type} [Inhabited T] (cmp : T → T → Int) (data : List T) :
    (drain cmp data).2 = [] ∧
    (data.isEmpty → (drain cmp data).1 = []) ∧
    asyncIterate cmp data = drain cmp data ∧
    (¬ data.isEmpty →
      (drain cmp data).1 = (pop cmp data).1.toList ++ (drain cmp (pop cmp data).2).1) := by
  refine ⟨drain_snd_nil cmp data, fun h => ?_, rfl, fun h => ?_⟩
  · rw [drain_empty cmp data h]
  · rw [drain_cons cmp data h]

theorem c5_drain_witness :
    (drain descend ([5, 1] : List Int)).2 = [] :=
  (c5_drain descend [5, 1]).1

/-- C6: on a heap large enough that `pop()` must consult the comparator
(length ≥ 3 guarantees the sift-down loop runs), a comparator failure
propagates unmodified, the sift is aborted, and the already-performed
swap of the root with the last element is left in place (no rollback):
the resulting backing list is exactly `swap data 0 (length - 1)`. -/
theorem c6_pop_failure {T ε : Type} [Inhabited T] (cmp : T → T → Except ε Int)
    (e : ε) (hfail : ∀ a b, cmp a b = .error e) (data : List T)
    (h : 3 ≤ data.length) :
    popE cmp data = .error (e, swap data 0 (data.length - 1)) :=
  popE_error cmp e hfail data h

theorem c6_pop_failure_witness :
    (3 ≤ ([3, 2, 1] : List Int).length ∧
      popE (fun _ _ => (.error ("boom") : Except String Int)) [3, 2, 1] =
        .error ("boom", [1, 2, 3]) ∧
      ¬ heapProp descend [1, 2, 3]) := by
  refine ⟨by decide, ?_, by decide⟩
  have h := c6_pop_failure (fun _ _ => (.error ("boom") : Except String Int)) ("boom")
    (fun _ _ => rfl) [3, 2, 1] (by decide)
  rw [h]
  rfl

/-- C7: constructing with a non-callable comparator fails synchronously
with a `TypeError` (the `InvalidArgument` class) and produces no heap;
constructing with a callable comparator, or with the argument omitted
(selecting the default), succeeds and produces an empty heap. -/
theorem c7_constructor {T : Type} (dflt f : T → T → Int) :
    mkBinaryHeap dflt (CompareArg.notCallable : CompareArg T) =
      .error (.typeError
        ("Cannot construct a BinaryHeap: the 'compare' parameter is not a function, did you mean to call BinaryHeap.from?")) ∧
    mkBinaryHeap dflt (CompareArg.callable f) = .ok (f, []) ∧
    mkBinaryHeap dflt (CompareArg.missing : CompareArg T) = .ok (dflt, []) :=
  ⟨rfl, rfl, rfl⟩

/-- C8: copying a heap via `from` with neither `compare` nor `map`
leaves the source object untouched, creates a fresh object (fresh store
index) with equal contents, and the two are structurally independent:
any push/pop/clear through one reference leaves the object behind the
other reference unchanged. -/
theorem c8_copy_independent {T : Type} [Inhabited T] (store : List (HeapObj T))
    (src : Nat) (h : src < store.length) :
    (fromHeapCheap store src).2 ≠ src ∧
    elemAt (fromHeapCheap store src).1 src = elemAt store src ∧
    elemAt (fromHeapCheap store src).1 (fromHeapCheap store src).2 =
      ⟨(elemAt store src).cmp, (elemAt store src).data⟩ ∧
    (∀ op, elemAt (applyMutAt (fromHeapCheap store src).1 (fromHeapCheap store src).2 op)
      src = elemAt (fromHeapCheap store src).1 src) ∧
    (∀ op, elemAt (applyMutAt (fromHeapCheap store src).1 src op)
      (fromHeapCheap store src).2 =
        elemAt (fromHeapCheap store src).1 (fromHeapCheap store src).2) := by
  unfold fromHeapCheap applyMutAt
  refine ⟨by omega, elemAt_append_lt store _ h, elemAt_append_self store _, ?_, ?_⟩
  · intro op
    exact elemAt_set_ne _ (by omega)
  · intro op
    exact elemAt_set_ne _ (by omega)

theorem c8_copy_independent_witness :
    ((0 : Nat) < ([⟨descend, [3, 2, 1]⟩] : List (HeapObj Int)).length ∧
      elemAt (applyMutAt (fromHeapCheap [⟨descend, [3, 2, 1]⟩] 0).1
          (fromHeapCheap [⟨descend, [3, 2, 1]⟩] 0).2 MutOp.clearOp) 0 =
        elemAt (fromHeapCheap [⟨descend, [3, 2, 1]⟩] 0).1 0) :=
  ⟨by decide,
    (c8_copy_independent [⟨descend, [3, 2, 1]⟩] 0 (by decide)).2.2.2.1 MutOp.clearOp⟩

/-- C9: `from` with a `map` option applies the transform to each source
element together with its positional index, invoked on the `thisArg`
receiver, before insertion; concretely, building from `[4, 2, 7]` with
the doubling map yields a heap of length 3 that drains to
`[14, 8, 4]`. -/
theorem c9_from_map {V T U : Type} [Inhabited T] [Inhabited U]
    (f : V → T → Nat → U) (z : V) (l : List T) :
    jsArrayFromMap f z l 0 = l.mapIdx (fun k a => f z a k) ∧
    (fromListMap descend (fun (_ : Unit) n _ => n * 2) () [4, 2, 7]).length = 3 ∧
    (drain descend (fromListMap descend (fun (_ : Unit) n _ => n * 2) () [4, 2, 7])).1 =
      [14, 8, 4] := by
  refine ⟨?_, ?_, ?_⟩
  · rw [jsArrayFromMap_eq_mapIdx]
    have : (fun k (a : T) => f z a (0 + k)) = fun k (a : T) => f z a k := by
      funext k a
      rw [Nat.zero_add]
    rw [this]
  · rw [fromListMap, length_push_snd]
    rfl
  · simp only [fromListMap, jsArrayFromMap]
    norm_num [push, push1, siftUpLoop_pos, siftUpLoop_zero, drain_cons, drain_empty, pop,
      siftDownLoop_go, siftDownLoop_stop, pickChild, swap, elemAt, getParentIndex, descend]

/-- C10: during sift-down, when both children are within the logical
bounds and the comparator applied to (left child, right child) returns
exactly 0, the left child is selected as the swap candidate — the
`<= 0` test of line 163 — so one loop step recurses (or stops) on the
left child.  `pop` is a pure function of the comparator and the backing
list in this embedding, hence deterministic for any fixed comparator. -/
theorem c10_tie_left {T : Type} [Inhabited T] (cmp : T → T → Int) (data : List T)
    (size parent : Nat) (hl : 2 * parent + 1 < size) (hr : 2 * parent + 2 < size)
    (htie : cmp (elemAt data (2 * parent + 1)) (elemAt data (2 * parent + 2)) = 0) :
    pickChild cmp data size (2 * parent + 1) (2 * parent + 2) = 2 * parent + 1 ∧
    siftDownLoop cmp data size parent =
      if cmp (elemAt data (2 * parent + 1)) (elemAt data parent) < 0 then
        siftDownLoop cmp (swap data parent (2 * parent + 1)) size (2 * parent + 1)
      else data := by
  have harl : 2 * (parent + 1) - 1 = 2 * parent + 1 := by omega
  have harr : 2 * (parent + 1) = 2 * parent + 2 := by omega
  have hpick : pickChild cmp data size (2 * parent + 1) (2 * parent + 2) = 2 * parent + 1 := by
    unfold pickChild
    rw [if_neg (by omega), if_pos (by omega)]
  refine ⟨hpick, ?_⟩
  rw [siftDownLoop_go cmp data (by omega), harl, harr, hpick]

theorem c10_tie_left_witness :
    (2 * 0 + 1 < 5 ∧ 2 * 0 + 2 < 5 ∧
      descend (elemAt ([1, 3, 3, 9, 9] : List Int) (2 * 0 + 1))
        (elemAt ([1, 3, 3, 9, 9] : List Int) (2 * 0 + 2)) = 0 ∧
      pickChild descend ([1, 3, 3, 9, 9] : List Int) 5 (2 * 0 + 1) (2 * 0 + 2) = 2 * 0 + 1) :=
  ⟨by decide, by decide, by decide,
    (c10_tie_left descend [1, 3, 3, 9, 9] 5 0 (by decide) (by decide) (by decide)).1⟩

end Claims

end AsyncBinaryHeap
